import Mathlib

/-!
Verification of the ServerCommunication repository's event-log design.

The repository's source sketches the command surface of a durable append-only
event log (Redis streams: `xadd`, `xread`, consumer groups) together with a
WebSocket broadcast server and a cache-aside HTTP handler.  The event-log
machinery itself (ID generation, pending-entry tracking, claim, trim) lives in
the external Redis collaborator, so it is modelled here from the design
specification; the WebSocket server and the cache handler are embedded directly
from the source files.
-/

namespace ServerComm

/-- Modelled from the spec: composite entry identifier `(timestamp_ms, sequence)`,
compared lexicographically, timestamp first. -/
structure EntryID where
  ts : Nat
  seq : Nat
deriving DecidableEq

/-- Lexicographic strict order on composite IDs (timestamp first, then sequence). -/
def EntryID.ltb (a b : EntryID) : Bool :=
  Nat.blt a.ts b.ts || (a.ts == b.ts && Nat.blt a.seq b.seq)

/-- Lexicographic non-strict order on composite IDs. -/
def EntryID.leb (a b : EntryID) : Bool :=
  a.ltb b || a == b

/-- Modelled from the spec: the ID Generator.  If the wall clock is strictly ahead
of the last-assigned timestamp the sequence resets to 0; otherwise (equal clock,
or a backward clock jump) the previous timestamp is kept and the sequence is
incremented, so the generated ID is always strictly greater than the last one. -/
def genId (last : EntryID) (now : Nat) : EntryID :=
  if last.ts < now then ⟨now, 0⟩ else ⟨last.ts, last.seq + 1⟩

/-- Modelled from the spec: an entry is an ID together with an ordered field list. -/
structure Entry where
  id : EntryID
  fields : List (String × String)
deriving DecidableEq

/-- Modelled from the spec: a log is the ordered list of entries together with the
last-assigned ID (the high-water mark). -/
structure Log where
  entries : List Entry
  lastId : EntryID
deriving DecidableEq

def Log.fresh : Log := ⟨[], ⟨0, 0⟩⟩

/-- True when a field list contains two bindings for one key. -/
def hasDupKey : List (String × String) → Bool
  | [] => false
  | (k, _) :: rest => rest.any (fun p => p.fst == k) || hasDupKey rest

/-- A field list is a valid append payload when it is nonempty and has no
duplicated key. -/
def fieldsOk (fs : List (String × String)) : Bool :=
  !fs.isEmpty && !hasDupKey fs

inductive StreamErr where
  | invalidEntry
  | nonMonotonicID
  | unknownLog
  | unknownGroup
  | groupExists
deriving DecidableEq

/-- Modelled from the spec: `append(fields) -> id`.  Fails with `InvalidEntry` on
an empty or key-duplicating payload; otherwise assigns the next ID from the
generator and appends the entry, advancing the high-water mark. -/
def Log.append (l : Log) (now : Nat) (fs : List (String × String)) :
    Except StreamErr (EntryID × Log) :=
  if fieldsOk fs then
    let id := genId l.lastId now
    .ok (id, ⟨l.entries ++ [⟨id, fs⟩], id⟩)
  else
    .error .invalidEntry

/-- Run a sequence of append operations (each a wall-clock reading plus a field
list), collecting the IDs returned by the successful appends. -/
def Log.appendAll (l : Log) (ops : List (Nat × List (String × String))) :
    List EntryID × Log :=
  match ops with
  | [] => ([], l)
  | (now, fs) :: rest =>
    match l.append now fs with
    | .error _ => l.appendAll rest
    | .ok (id, l') =>
      let p := l'.appendAll rest
      (id :: p.fst, p.snd)

/-- Lexicographic order as a proposition, for stating monotonicity. -/
def idLt (a b : EntryID) : Prop :=
  a.ts < b.ts ∨ (a.ts = b.ts ∧ a.seq < b.seq)

/-- Modelled from the spec: a range bound; `min` is the open-ended start token
`-` (beginning of the log), `max` the open-ended end token `+` (end of the
log), and `idAt` a literal ID bound. -/
inductive RangeBound where
  | min
  | max
  | idAt (id : EntryID)
deriving DecidableEq

/-- Does an entry ID satisfy an inclusive lower range bound? -/
def lowerOk : RangeBound → EntryID → Bool
  | .min, _ => true
  | .max, _ => false
  | .idAt a, id => a.leb id

/-- Does an entry ID satisfy an inclusive upper range bound? -/
def upperOk : RangeBound → EntryID → Bool
  | .min, _ => false
  | .max, _ => true
  | .idAt b, id => id.leb b

/-- Modelled from the spec: `range(start_id, end_id, limit)` — the entries whose
IDs lie within the inclusive bounds, in log order, truncated to `limit`. -/
def Log.range (l : Log) (s e : RangeBound) (limit : Nat) : List Entry :=
  (l.entries.filter (fun en => lowerOk s en.id && upperOk e en.id)).take limit

/-- Modelled from the spec: a Pending Entry Record — the tuple
`(entry-id, consumer-name, delivery-count, first-delivered-at)` kept per
(group, entry-id) with an outstanding delivery. -/
structure PendingRecord where
  entryId : EntryID
  consumer : String
  deliveryCount : Nat
  firstDeliveredAt : Nat
deriving DecidableEq

/-- Modelled from the spec: a consumer group, with its delivery cursor
(`last-delivered-id`) and its Pending Entry List.  `gid` is an internal
identity distinguishing re-created groups that reuse a name. -/
structure Group where
  name : String
  gid : Nat
  lastDeliveredId : EntryID
  pel : List PendingRecord
  createdAt : Nat
deriving DecidableEq

/-- Is an entry ID currently pending in the group's PEL? -/
def Group.hasPending (g : Group) (id : EntryID) : Bool :=
  g.pel.any (fun r => r.entryId == id)

/-- Modelled from the spec: `record_delivery(group, entry_id, consumer)` —
inserts a fresh record, or on re-delivery updates the owner and increments
`delivery-count` without refreshing `first-delivered-at`. -/
def recordDelivery (pel : List PendingRecord) (id : EntryID) (c : String)
    (now : Nat) : List PendingRecord :=
  if pel.any (fun r => r.entryId == id) then
    pel.map (fun r =>
      if r.entryId == id then
        { r with consumer := c, deliveryCount := r.deliveryCount + 1 }
      else r)
  else
    pel ++ [⟨id, c, 1, now⟩]

/-- Point lookup of an entry by ID. -/
def Log.lookup (l : Log) (id : EntryID) : Option Entry :=
  l.entries.find? (fun en => en.id == id)

/-- Modelled from the spec: new-entries mode read — serves up to `count`
entries strictly after the group cursor, advances the cursor past what it
serves, and records each served entry in the PEL under `consumer`. -/
def Group.readNew (g : Group) (log : Log) (c : String) (count : Nat)
    (now : Nat) : List Entry × Group :=
  let served := (log.entries.filter (fun en => g.lastDeliveredId.ltb en.id)).take count
  let pel' := served.foldl (fun p en => recordDelivery p en.id c now) g.pel
  let cursor' := match served.getLast? with
    | some en => en.id
    | none => g.lastDeliveredId
  (served, { g with lastDeliveredId := cursor', pel := pel' })

/-- One step of the claim scan over the PEL: a record idle at least
`minIdle` is reassigned to the claiming consumer (incrementing
`delivery-count`, keeping `first-delivered-at`) when its entry still exists,
and silently dropped when the entry has been trimmed; a non-idle record is
kept unchanged. -/
def claimStep (log : Log) (minIdle : Nat) (c : String) (now : Nat)
    (acc : List Entry × List PendingRecord) (r : PendingRecord) :
    List Entry × List PendingRecord :=
  if minIdle ≤ now - r.firstDeliveredAt then
    match log.lookup r.entryId with
    | some en =>
      (acc.fst ++ [en],
       acc.snd ++ [{ r with consumer := c, deliveryCount := r.deliveryCount + 1 }])
    | none => acc
  else
    (acc.fst, acc.snd ++ [r])

/-- Modelled from the spec: `claim(group, min_idle_ms, consumer)` — scans all
pending records of the group, reassigning the sufficiently idle ones to
`consumer` and dropping orphaned ones, returning the reclaimed entries. -/
def Group.claim (g : Group) (log : Log) (minIdle : Nat) (c : String)
    (now : Nat) : List Entry × Group :=
  let p := g.pel.foldl (claimStep log minIdle c now) ([], [])
  (p.fst, { g with pel := p.snd })

/-- One step of a history-mode read: a record owned by the reading consumer is
re-served with `delivery-count` incremented when its entry still exists, and
silently dropped when the entry has been trimmed; other consumers' records are
kept unchanged. -/
def historyStep (log : Log) (c : String)
    (acc : List Entry × List PendingRecord) (r : PendingRecord) :
    List Entry × List PendingRecord :=
  if r.consumer == c then
    match log.lookup r.entryId with
    | some en =>
      (acc.fst ++ [en], acc.snd ++ [{ r with deliveryCount := r.deliveryCount + 1 }])
    | none => acc
  else
    (acc.fst, acc.snd ++ [r])

/-- Modelled from the spec: history-mode group read (the special cursor `"0"`) —
re-delivers the reading consumer's own pending entries without consulting the
group cursor and without creating new pending records. -/
def Group.readHistory (g : Group) (log : Log) (c : String) :
    List Entry × Group :=
  let p := g.pel.foldl (historyStep log c) ([], [])
  (p.fst, { g with pel := p.snd })

/-- Modelled from the spec: `acknowledge(group, entry_id) -> bool` — removes
the pending record and reports `true`; reports `false` as a no-op signal when
no such pending record exists. -/
def Group.ack (g : Group) (id : EntryID) : Bool × Group :=
  if g.hasPending id then
    (true, { g with pel := g.pel.filter (fun r => !(r.entryId == id)) })
  else
    (false, g)

/-- Modelled from the spec: a retention policy — trim by count or by minimum ID. -/
inductive TrimPolicy where
  | maxLength (n : Nat)
  | minId (m : EntryID)
deriving DecidableEq

/-- Modelled from the spec: exact (non-relaxed) trimming — removes the oldest
entries exceeding the policy and never removes an entry the policy keeps. -/
def Log.trim (l : Log) (p : TrimPolicy) : Log :=
  match p with
  | .maxLength n => { l with entries := l.entries.drop (l.entries.length - n) }
  | .minId m => { l with entries := l.entries.filter (fun en => m.leb en.id) }

/-- Modelled from the spec: a group's starting cursor — `newOnly` is the `$`
token (only entries appended after creation); `fromId` a literal ID, so the
token `"0"` is `fromId ⟨0, 0⟩`. -/
inductive StartPos where
  | newOnly
  | fromId (id : EntryID)
deriving DecidableEq

/-- The full per-log state: the entry store plus the consumer-group registry.
`nextGid` is the internal counter handing out group identities. -/
structure Stream where
  log : Log
  groups : List Group
  nextGid : Nat
deriving DecidableEq

def Stream.start : Stream := ⟨Log.fresh, [], 0⟩

def Stream.findGroup (s : Stream) (gname : String) : Option Group :=
  s.groups.find? (fun g => g.name == gname)

def Stream.setGroup (s : Stream) (g' : Group) : Stream :=
  { s with groups := s.groups.map (fun g => if g.gid == g'.gid then g' else g) }

/-- Observation of one new-entries mode delivery: which group (by internal
identity), which consumer, which entry. -/
structure DeliveryEvent where
  gid : Nat
  consumer : String
  entryId : EntryID
deriving DecidableEq

/-- The operations callers may issue against one log. -/
inductive Op where
  | append (now : Nat) (fs : List (String × String))
  | createGroup (gname : String) (pos : StartPos) (now : Nat)
  | readNew (gname consumer : String) (count now : Nat)
  | readHistory (gname consumer : String)
  | ack (gname : String) (id : EntryID)
  | claim (gname : String) (minIdle : Nat) (consumer : String) (now : Nat)
  | trim (p : TrimPolicy)
  | deleteGroup (gname : String)
deriving DecidableEq

/-- One step of the log state machine; failing operations leave the state
unchanged.  Alongside the new state it reports the new-entries mode
deliveries performed by the step. -/
def Stream.step (s : Stream) (op : Op) : Stream × List DeliveryEvent :=
  match op with
  | .append now fs =>
    match s.log.append now fs with
    | .ok p => ({ s with log := p.snd }, [])
    | .error _ => (s, [])
  | .createGroup gname pos now =>
    if s.groups.any (fun g => g.name == gname) then (s, [])
    else
      let cursor := match pos with
        | .newOnly => s.log.lastId
        | .fromId i => i
      ({ s with groups := s.groups ++ [⟨gname, s.nextGid, cursor, [], now⟩],
                nextGid := s.nextGid + 1 }, [])
  | .readNew gname c count now =>
    match s.findGroup gname with
    | none => (s, [])
    | some g =>
      let p := g.readNew s.log c count now
      (s.setGroup p.snd, p.fst.map (fun en => ⟨g.gid, c, en.id⟩))
  | .readHistory gname c =>
    match s.findGroup gname with
    | none => (s, [])
    | some g => (s.setGroup (g.readHistory s.log c).snd, [])
  | .ack gname id =>
    match s.findGroup gname with
    | none => (s, [])
    | some g => (s.setGroup (g.ack id).snd, [])
  | .claim gname minIdle c now =>
    match s.findGroup gname with
    | none => (s, [])
    | some g => (s.setGroup (g.claim s.log minIdle c now).snd, [])
  | .trim p => ({ s with log := s.log.trim p }, [])
  | .deleteGroup gname =>
    ({ s with groups := s.groups.filter (fun g => !(g.name == gname)) }, [])

/-- Run a sequence of operations from a state, accumulating delivery events. -/
def Stream.runFrom (s : Stream) (evs : List DeliveryEvent) (ops : List Op) :
    Stream × List DeliveryEvent :=
  match ops with
  | [] => (s, evs)
  | op :: rest =>
    let p := s.step op
    Stream.runFrom p.fst (evs ++ p.snd) rest

/-- Run a sequence of operations from the empty log. -/
def Stream.run (ops : List Op) : Stream × List DeliveryEvent :=
  Stream.runFrom Stream.start [] ops

/-- The log of the spec's concrete scenario: a signup event then an order
event appended to a fresh log. -/
def scenarioLog : Log :=
  (Log.fresh.appendAll
    [(100, [("event", "signup"), ("userId", "101")]),
     (100, [("event", "order"), ("orderId", "5001")])]).snd

/-- The scenario's group `g1`, created with start cursor `"0"`. -/
def scenarioGroup : Group := ⟨"g1", 0, ⟨0, 0⟩, [], 100⟩

/-- The scenario's group read: `read_group(log, "g1", "c1", 10)`. -/
def scenarioRead : List Entry × Group :=
  scenarioGroup.readNew scenarioLog "c1" 10 200

/-- The scenario's acknowledgment of the first delivered entry. -/
def scenarioAck : Bool × Group :=
  scenarioRead.snd.ack ⟨100, 0⟩

/-- The scenario's reclaim: `claim(log, "g1", 0, "c2")`. -/
def scenarioClaim : List Entry × Group :=
  scenarioAck.snd.claim scenarioLog 0 "c2" 300

/-- An orphaned pending record used in the C6 witness: it references the first
entry of the witness log, which trimming removes. -/
def r6w : PendingRecord := ⟨⟨1, 0⟩, "c1", 1, 7⟩

/-- A group holding the orphaned record `r6w`, used in the C6 witness. -/
def g6w : Group := ⟨"g1", 0, ⟨5, 0⟩, [r6w], 0⟩


/-- Modelled from the spec: the ways a suspended blocking read can be woken —
the `block_ms` timeout elapses, the caller cancels, or an append arrives
while the call is suspended. -/
inductive BlockEvent where
  | timeout
  | cancel
  | arrival (now : Nat) (fs : List (String × String))
deriving DecidableEq

/-- Outcome of a blocking new-entries read: entries served, a normal empty
result after the timeout elapses, or a cancellation. -/
inductive BlockOutcome where
  | served (es : List Entry)
  | timedOutEmpty
  | cancelled
deriving DecidableEq

/-- Modelled from the spec: resolution of a new-entries mode read with
`block_ms` set.  If entries past the group cursor are available they are
served at once.  Otherwise the call suspends and is resolved by the first
`BlockEvent`: on timeout it returns an empty result (a normal outcome, not an
error), on cancellation it returns `cancelled` with no delivery bookkeeping,
and on a successful concurrent append it serves from the appended-to log (a
failed append does not wake the reader, so the timeout fires instead). -/
def resolveBlockingRead (log : Log) (g : Group) (c : String) (count : Nat)
    (now : Nat) (ev : BlockEvent) : BlockOutcome × Log × Group :=
  let first := g.readNew log c count now
  if first.fst.isEmpty then
    match ev with
    | .cancel => (.cancelled, log, g)
    | .timeout => (.timedOutEmpty, log, g)
    | .arrival anow fs =>
      match log.append anow fs with
      | .ok p =>
        let second := g.readNew p.snd c count anow
        (.served second.fst, p.snd, second.snd)
      | .error _ => (.timedOutEmpty, log, g)
  else
    (.served first.fst, log, first.snd)

/-- The readyState value `WebSocket.OPEN` of the `ws` library. -/
def wsOPEN : Nat := 1

/-- A connected client of the WebSocket broadcast server in `list.js`: its
connection readyState and the messages sent to it so far, each a payload
paired with its binary flag. -/
structure WSClient where
  readyState : Nat
  received : List (String × Bool)
deriving DecidableEq

/-- The broadcast server state: the connected clients (`wss.clients`) and the
connection counter `count`. -/
structure WSServer where
  clients : List WSClient
  count : Nat
deriving DecidableEq

/-- The greeting `list.js` sends to every newly connected client. -/
def wsGreeting : String := "Hello! This is a WebSocket server"

/-- The `connection` handler of `list.js`: the new socket joins `wss.clients`
in the OPEN state, the counter is incremented, and the socket is immediately
sent the greeting (its first received message). -/
def wsConnect (st : WSServer) : WSServer :=
  { clients := st.clients ++ [⟨wsOPEN, [(wsGreeting, false)]⟩],
    count := st.count + 1 }

/-- The `message` handler of `list.js`: the received payload is sent, with its
binary flag preserved, to every client in `wss.clients` whose readyState is
OPEN — the sending client is in `wss.clients`, so it receives its own
message too. -/
def wsBroadcast (st : WSServer) (data : String) (isBinary : Bool) : WSServer :=
  { st with clients := st.clients.map (fun cl =>
      if cl.readyState = wsOPEN then
        { cl with received := cl.received ++ [(data, isBinary)] }
      else cl) }

/-- Outcome of one request to the cache-aside handler of `server.js`: a JSON
response carrying a value, or the HTTP 500 error response. -/
inductive HttpResponse (A : Type) where
  | json (v : A)
  | serverError
deriving DecidableEq

/-- Everything observable the `server.js` handler does in one request: the
response, whether the external API was fetched, and the cache write
(key, expiry seconds, serialized value) it performed, if any. -/
structure HandlerOutcome (A : Type) where
  response : HttpResponse A
  fetched : Bool
  cacheWrite : Option (String × Nat × String)
deriving DecidableEq

/-- The cache-miss path of the `server.js` handler: fetch from the external
API; on success store the serialized data under "posts" with a 60-second
expiry and respond with the data; a throwing fetch reaches the catch block
and yields HTTP 500. -/
def cacheMissPath {A : Type} (strfy : A → String) (api : Except Unit A) :
    HandlerOutcome A :=
  match api with
  | .ok d => ⟨.json d, true, some ("posts", 60, strfy d)⟩
  | .error _ => ⟨.serverError, true, none⟩

/-- The `GET /` cache-aside handler of `server.js`, embedded over an abstract
data type: `parse` and `strfy` stand for `JSON.parse` (which may throw, hence
`Option`) and `JSON.stringify`; `api` stands for the axios fetch, which may
throw.  The cached value is tested with JS truthiness (`if (cachedData)`), so
an empty cached string takes the miss path; a cached value that fails to
parse reaches the catch block and yields HTTP 500 without fetching. -/
def cacheHandler {A : Type} (parse : String → Option A) (strfy : A → String)
    (cached : Option String) (api : Except Unit A) : HandlerOutcome A :=
  match cached with
  | some s =>
    if s = "" then cacheMissPath strfy api
    else
      match parse s with
      | some v => ⟨.json v, false, none⟩
      | none => ⟨.serverError, false, none⟩
  | none => cacheMissPath strfy api


/-- Well-formedness of the entry store: entry IDs strictly increase in log
order and all lie at or below the high-water mark. -/
def Log.wf (l : Log) : Prop :=
  (l.entries.map Entry.id).Pairwise idLt ∧
  ∀ en ∈ l.entries, en.id.leb l.lastId = true

/-- Well-formedness of a consumer group: PEL entry-ids are unique and lie at
or below the group cursor. -/
def Group.wf (g : Group) : Prop :=
  (g.pel.map PendingRecord.entryId).Nodup ∧
  ∀ r ∈ g.pel, r.entryId.leb g.lastDeliveredId = true

/-- The reachable-state invariant of the log state machine, relating the
state to the accumulated history of new-entries mode deliveries. -/
def StreamInv (s : Stream) (evs : List DeliveryEvent) : Prop :=
  s.log.wf ∧
  (s.groups.map Group.gid).Nodup ∧
  (∀ g ∈ s.groups, g.gid < s.nextGid) ∧
  (∀ e ∈ evs, e.gid < s.nextGid) ∧
  (∀ g ∈ s.groups, g.wf ∧
    ∀ e ∈ evs, e.gid = g.gid → e.entryId.leb g.lastDeliveredId = true) ∧
  evs.Pairwise (fun e1 e2 => e1.gid = e2.gid → e1.entryId ≠ e2.entryId)

/-- A small operation sequence exercising two consumers of one group, used by
the C5 and C8 witnesses. -/
def opsDemo : List Op :=
  [.append 100 [("k", "1")], .append 100 [("k", "2")],
   .createGroup "g1" (.fromId ⟨0, 0⟩) 100,
   .readNew "g1" "c1" 1 200, .readNew "g1" "c2" 1 200]

instance : IsTrans EntryID idLt :=
  ⟨by
    rintro ⟨a1, a2⟩ ⟨b1, b2⟩ ⟨c1, c2⟩ hab hbc
    rcases hab with h | ⟨h, h2⟩ <;> rcases hbc with h' | ⟨h', h2'⟩ <;>
      simp only [idLt] at * <;> omega⟩

-- THEOREMS ------------------------------------------------------------------

theorem idLt_irrefl (a : EntryID) : ¬ idLt a a := by
  rcases a with ⟨t, s⟩
  simp [idLt]

theorem ltb_iff_idLt (a b : EntryID) : a.ltb b = true ↔ idLt a b := by
  rcases a with ⟨t, s⟩; rcases b with ⟨t', s'⟩
  simp [EntryID.ltb, idLt, Nat.blt_eq]

theorem leb_iff (a b : EntryID) : a.leb b = true ↔ idLt a b ∨ a = b := by
  simp only [EntryID.leb, Bool.or_eq_true, ltb_iff_idLt, beq_iff_eq]

theorem idLt_of_leb_of_idLt {a b c : EntryID} (h : a.leb b = true) (h' : idLt b c) :
    idLt a c := by
  rcases (leb_iff a b).mp h with h0 | rfl
  · exact Trans.trans h0 h'
  · exact h'

theorem genId_idLt (last : EntryID) (now : Nat) : idLt last (genId last now) := by
  rcases last with ⟨t, s⟩
  by_cases h : t < now
  · exact Or.inl (by simp [genId, h])
  · right
    constructor
    · simp [genId, h]
    · simp [genId, h]

theorem appendAll_chain (ops : List (Nat × List (String × String))) :
    ∀ l : Log, List.Chain idLt l.lastId (l.appendAll ops).fst := by
  induction ops with
  | nil => intro l; simp [Log.appendAll]
  | cons op rest ih =>
    intro l
    rcases op with ⟨now, fs⟩
    by_cases h : fieldsOk fs = true
    · have happ : l.append now fs =
          .ok (genId l.lastId now,
            ⟨l.entries ++ [⟨genId l.lastId now, fs⟩], genId l.lastId now⟩) := by
        simp [Log.append, h]
      have hlast :
          (Log.mk (l.entries ++ [⟨genId l.lastId now, fs⟩]) (genId l.lastId now)).lastId
            = genId l.lastId now := rfl
      simp only [Log.appendAll, happ]
      exact List.Chain.cons (genId_idLt l.lastId now)
        (ih ⟨l.entries ++ [⟨genId l.lastId now, fs⟩], genId l.lastId now⟩)
    · have happ : l.append now fs = .error .invalidEntry := by
        simp [Log.append, h]
      simp only [Log.appendAll, happ]
      exact ih l

/-- C1: for every sequence of append operations on a single log — the wall-clock
readings being completely arbitrary, so in particular allowed to jump backward
between appends — the sequence of IDs returned by the successful appends is
strictly increasing under the composite `(timestamp_ms, sequence)` lexicographic
order, and every returned ID is strictly greater than the log's previous
high-water mark. -/
theorem c1_append_ids_strictly_increasing
    (l : Log) (ops : List (Nat × List (String × String))) :
    ((l.appendAll ops).fst).Pairwise idLt ∧
      ∀ id ∈ (l.appendAll ops).fst, idLt l.lastId id := by
  have h := appendAll_chain ops l
  have hp := List.chain_iff_pairwise.mp h
  exact ⟨hp.tail, fun id hid => List.rel_of_pairwise_cons hp hid⟩

/-- Witness for C1 at a concrete input: two appends, the second under a
backward clock jump, produce IDs `(5,0)` then `(5,1)`, both above the fresh
log's initial high-water mark. -/
theorem c1_append_ids_strictly_increasing_witness :
    idLt ⟨0, 0⟩ ⟨5, 0⟩ ∧ idLt ⟨0, 0⟩ ⟨5, 1⟩ := by
  have h := c1_append_ids_strictly_increasing Log.fresh
    [(5, [("a", "1")]), (3, [("b", "2")])]
  exact ⟨h.2 ⟨5, 0⟩ (by decide), h.2 ⟨5, 1⟩ (by decide)⟩

theorem appendAll_spec (ops : List (Nat × List (String × String))) :
    ∀ l : Log, (∀ p ∈ ops, fieldsOk p.snd = true) →
    ∃ new : List Entry,
      (l.appendAll ops).snd.entries = l.entries ++ new ∧
      new.map Entry.fields = ops.map Prod.snd ∧
      new.map Entry.id = (l.appendAll ops).fst := by
  induction ops with
  | nil =>
    intro l _
    exact ⟨[], by simp [Log.appendAll]⟩
  | cons op rest ih =>
    intro l hv
    rcases op with ⟨now, fs⟩
    have hfs : fieldsOk fs = true := hv (now, fs) (List.mem_cons_self _ _)
    have happ : l.append now fs =
        .ok (genId l.lastId now,
          ⟨l.entries ++ [⟨genId l.lastId now, fs⟩], genId l.lastId now⟩) := by
      simp [Log.append, hfs]
    obtain ⟨new, he, hf, hi⟩ :=
      ih ⟨l.entries ++ [⟨genId l.lastId now, fs⟩], genId l.lastId now⟩
        (fun p hp => hv p (List.mem_cons_of_mem _ hp))
    refine ⟨⟨genId l.lastId now, fs⟩ :: new, ?_, ?_, ?_⟩
    · simp only [Log.appendAll, happ]
      simpa [List.append_assoc] using he
    · simpa using hf
    · simp only [Log.appendAll, happ, List.map_cons]
      simpa using hi

/-- C2: for every sequence of N valid appends to a fresh log, the full range
read `range("-", "+", N)` returns exactly those N entries, in append order,
carrying exactly the field lists the appends supplied, and bearing exactly the
IDs the appends returned. -/
theorem c2_range_returns_all_appended
    (ops : List (Nat × List (String × String)))
    (hv : ∀ p ∈ ops, fieldsOk p.snd = true) :
    ((Log.fresh.appendAll ops).snd.range .min .max ops.length).map Entry.fields
        = ops.map Prod.snd ∧
    ((Log.fresh.appendAll ops).snd.range .min .max ops.length).map Entry.id
        = (Log.fresh.appendAll ops).fst := by
  obtain ⟨new, he, hf, hi⟩ := appendAll_spec ops Log.fresh hv
  have hlen : new.length = ops.length := by
    have := congrArg List.length hf
    simpa using this
  have hrange : (Log.fresh.appendAll ops).snd.range .min .max ops.length = new := by
    rw [Log.range, he]
    simp only [Log.fresh, List.nil_append, lowerOk, upperOk, Bool.and_true,
      List.filter_true]
    rw [← hlen, List.take_length]
  rw [hrange]
  exact ⟨hf, hi⟩

/-- Witness for C2 at a concrete input: two valid appends, the second with a
backward-jumping clock; the full range read returns both entries in order. -/
theorem c2_range_returns_all_appended_witness :
    ((Log.fresh.appendAll [(5, [("a", "1")]), (3, [("b", "2")])]).snd.range
        .min .max 2).map Entry.fields = [[("a", "1")], [("b", "2")]] ∧
    ((Log.fresh.appendAll [(5, [("a", "1")]), (3, [("b", "2")])]).snd.range
        .min .max 2).map Entry.id
      = (Log.fresh.appendAll [(5, [("a", "1")]), (3, [("b", "2")])]).fst := by
  have h := c2_range_returns_all_appended
    [(5, [("a", "1")]), (3, [("b", "2")])] (by decide)
  simpa using h

/-- C3: in the concrete scenario — two appended entries, group `g1` created at
start cursor `"0"`, then `read_group(log, "g1", "c1", 10)` — the read returns
both entries in append order and records both as pending for `c1`; after the
first entry is acknowledged, `claim(log, "g1", 0, "c2")` returns exactly the
second (still-pending) entry, whose pending record is then owned by `c2`. -/
theorem c3_concrete_group_scenario :
    scenarioRead.fst =
      [⟨⟨100, 0⟩, [("event", "signup"), ("userId", "101")]⟩,
       ⟨⟨100, 1⟩, [("event", "order"), ("orderId", "5001")]⟩] ∧
    scenarioRead.snd.pel =
      [⟨⟨100, 0⟩, "c1", 1, 200⟩, ⟨⟨100, 1⟩, "c1", 1, 200⟩] ∧
    scenarioAck.fst = true ∧
    scenarioClaim.fst = [⟨⟨100, 1⟩, [("event", "order"), ("orderId", "5001")]⟩] ∧
    scenarioClaim.snd.pel = [⟨⟨100, 1⟩, "c2", 2, 200⟩] := by
  decide

theorem ack_filter_no_pending (pel : List PendingRecord) (id : EntryID) :
    (pel.filter (fun r => !(r.entryId == id))).any (fun r => r.entryId == id)
      = false := by
  induction pel with
  | nil => rfl
  | cons r rest ih =>
    by_cases h : r.entryId = id
    · simp [List.filter_cons, h, ih]
    · simp [List.filter_cons, h, ih]

/-- C4: a first acknowledge of a pending entry removes its pending record and
returns `true`; a second acknowledge of the same entry returns `false` and
leaves the group (so in particular its PEL) unchanged; and an acknowledge of
an entry that was never pending returns `false` and leaves the group
unchanged. -/
theorem c4_ack_idempotent_signal (g : Group) (id : EntryID) :
    (g.hasPending id = true →
      (g.ack id).fst = true ∧
      (g.ack id).snd.hasPending id = false ∧
      ((g.ack id).snd.ack id).fst = false ∧
      ((g.ack id).snd.ack id).snd = (g.ack id).snd) ∧
    (g.hasPending id = false →
      (g.ack id).fst = false ∧ (g.ack id).snd = g) := by
  constructor
  · intro h
    have hsnd : (g.ack id).snd =
        { g with pel := g.pel.filter (fun r => !(r.entryId == id)) } := by
      simp [Group.ack, h]
    have hnp : (g.ack id).snd.hasPending id = false := by
      rw [hsnd]
      simp only [Group.hasPending]
      exact ack_filter_no_pending g.pel id
    have hfalse : ∀ g' : Group, g'.hasPending id = false → g'.ack id = (false, g') :=
      fun g' h' => by simp [Group.ack, h']
    refine ⟨by simp [Group.ack, h], hnp, ?_, ?_⟩
    · rw [hfalse _ hnp]
    · rw [hfalse _ hnp]
  · intro h
    exact ⟨by simp [Group.ack, h], by simp [Group.ack, h]⟩

/-- Witness for C4 at concrete inputs: a group with one pending record; the
first acknowledge succeeds and the second reports `false` without change, and
acknowledging a never-delivered entry reports `false` without change. -/
theorem c4_ack_idempotent_signal_witness :
    ((Group.ack ⟨"g", 0, ⟨0, 0⟩, [⟨⟨1, 0⟩, "c", 1, 5⟩], 0⟩ ⟨1, 0⟩).fst = true ∧
     (Group.ack ⟨"g", 0, ⟨0, 0⟩, [⟨⟨1, 0⟩, "c", 1, 5⟩], 0⟩ ⟨1, 0⟩).snd.hasPending
        ⟨1, 0⟩ = false ∧
     ((Group.ack ⟨"g", 0, ⟨0, 0⟩, [⟨⟨1, 0⟩, "c", 1, 5⟩], 0⟩ ⟨1, 0⟩).snd.ack
        ⟨1, 0⟩).fst = false ∧
     ((Group.ack ⟨"g", 0, ⟨0, 0⟩, [⟨⟨1, 0⟩, "c", 1, 5⟩], 0⟩ ⟨1, 0⟩).snd.ack
        ⟨1, 0⟩).snd =
       (Group.ack ⟨"g", 0, ⟨0, 0⟩, [⟨⟨1, 0⟩, "c", 1, 5⟩], 0⟩ ⟨1, 0⟩).snd) ∧
    ((Group.ack ⟨"g", 0, ⟨0, 0⟩, [⟨⟨1, 0⟩, "c", 1, 5⟩], 0⟩ ⟨9, 9⟩).fst = false ∧
     (Group.ack ⟨"g", 0, ⟨0, 0⟩, [⟨⟨1, 0⟩, "c", 1, 5⟩], 0⟩ ⟨9, 9⟩).snd =
       ⟨"g", 0, ⟨0, 0⟩, [⟨⟨1, 0⟩, "c", 1, 5⟩], 0⟩) := by
  constructor
  · exact (c4_ack_idempotent_signal ⟨"g", 0, ⟨0, 0⟩, [⟨⟨1, 0⟩, "c", 1, 5⟩], 0⟩
      ⟨1, 0⟩).1 (by decide)
  · exact (c4_ack_idempotent_signal ⟨"g", 0, ⟨0, 0⟩, [⟨⟨1, 0⟩, "c", 1, 5⟩], 0⟩
      ⟨9, 9⟩).2 (by decide)

theorem lookup_id {l : Log} {id : EntryID} {en : Entry}
    (h : l.lookup id = some en) : en.id = id := by
  have := List.find?_some h
  simpa using this

theorem claim0_fold (log : Log) (c : String) (now : Nat)
    (pel : List PendingRecord) :
    ∀ acc : List Entry × List PendingRecord,
      pel.foldl (claimStep log 0 c now) acc =
        (acc.fst ++ pel.filterMap (fun r => log.lookup r.entryId),
         acc.snd ++ pel.filterMap (fun r =>
           (log.lookup r.entryId).map (fun _ =>
             { r with consumer := c, deliveryCount := r.deliveryCount + 1 }))) := by
  induction pel with
  | nil => intro acc; simp
  | cons r rest ih =>
    intro acc
    cases hl : log.lookup r.entryId with
    | none =>
      simp only [List.foldl_cons, List.filterMap_cons, claimStep, hl,
        Nat.zero_le, if_true, Option.map_none]
      exact ih acc
    | some en =>
      simp only [List.foldl_cons, List.filterMap_cons, claimStep, hl,
        Nat.zero_le, if_true, Option.map_some]
      rw [ih]
      simp [List.append_assoc]

theorem history_fold (log : Log) (c : String) (pel : List PendingRecord) :
    ∀ acc : List Entry × List PendingRecord,
      pel.foldl (historyStep log c) acc =
        (acc.fst ++ pel.filterMap (fun r =>
           if r.consumer == c then log.lookup r.entryId else none),
         acc.snd ++ pel.filterMap (fun r =>
           if r.consumer == c then
             (log.lookup r.entryId).map
               (fun _ => { r with deliveryCount := r.deliveryCount + 1 })
           else some r)) := by
  induction pel with
  | nil => intro acc; simp
  | cons r rest ih =>
    intro acc
    by_cases hc : r.consumer = c
    · cases hl : log.lookup r.entryId with
      | none =>
        simp only [List.foldl_cons, List.filterMap_cons, historyStep, hl, hc,
          beq_self_eq_true, if_true, Option.map_none]
        exact ih acc
      | some en =>
        simp only [List.foldl_cons, List.filterMap_cons, historyStep, hl, hc,
          beq_self_eq_true, if_true, Option.map_some]
        rw [ih]
        simp [List.append_assoc]
    · have hb : (r.consumer == c) = false := by
        simp [hc]
      simp only [List.foldl_cons, List.filterMap_cons, historyStep, hb,
        Bool.false_eq_true, if_false]
      rw [ih]
      simp [List.append_assoc]

/-- C6: after 5 valid appends, exact trimming to `max_length 2` leaves exactly
the 2 newest entries retrievable via a full range read; and on the trimmed
log, a pending record whose entry was trimmed away is silently dropped — not
returned and no longer pending — by the next `claim` (min-idle 0) and by the
next history-mode group read of its owning consumer. -/
theorem c6_trim_keeps_newest_and_drops_orphans
    (ops : List (Nat × List (String × String)))
    (h5 : ops.length = 5)
    (hv : ∀ p ∈ ops, fieldsOk p.snd = true) :
    ((((Log.fresh.appendAll ops).snd.trim (.maxLength 2)).range .min .max 5).map
        Entry.fields = (ops.map Prod.snd).drop 3 ∧
     (((Log.fresh.appendAll ops).snd.trim (.maxLength 2)).range .min .max 5).map
        Entry.id = (Log.fresh.appendAll ops).fst.drop 3) ∧
    (∀ (g : Group) (r : PendingRecord) (c : String) (now : Nat),
      (g.pel.map PendingRecord.entryId).Nodup →
      r ∈ g.pel →
      ((Log.fresh.appendAll ops).snd.trim (.maxLength 2)).lookup r.entryId = none →
      ((∀ r' ∈ (g.claim ((Log.fresh.appendAll ops).snd.trim (.maxLength 2))
            0 c now).snd.pel, r'.entryId ≠ r.entryId) ∧
       r.entryId ∉ ((g.claim ((Log.fresh.appendAll ops).snd.trim (.maxLength 2))
            0 c now).fst.map Entry.id) ∧
       (r.consumer = c →
         (∀ r' ∈ (g.readHistory ((Log.fresh.appendAll ops).snd.trim
              (.maxLength 2)) c).snd.pel, r'.entryId ≠ r.entryId) ∧
         r.entryId ∉ ((g.readHistory ((Log.fresh.appendAll ops).snd.trim
              (.maxLength 2)) c).fst.map Entry.id)))) := by
  obtain ⟨new, he, hf, hi⟩ := appendAll_spec ops Log.fresh hv
  have hlen : new.length = ops.length := by
    have := congrArg List.length hf
    simpa using this
  have htrim : ((Log.fresh.appendAll ops).snd.trim (.maxLength 2)).entries
      = new.drop 3 := by
    simp only [Log.trim]
    rw [he]
    have hfe : Log.fresh.entries = [] := rfl
    rw [hfe, List.nil_append, hlen, h5]
  constructor
  · have hrange : ((Log.fresh.appendAll ops).snd.trim (.maxLength 2)).range
        .min .max 5 = new.drop 3 := by
      rw [Log.range, htrim]
      simp only [lowerOk, upperOk, Bool.and_true, List.filter_true]
      apply List.take_of_length_le
      have : (new.drop 3).length = new.length - 3 := List.length_drop 3 new
      omega
    rw [hrange]
    constructor
    · rw [List.map_drop, hf]
    · rw [List.map_drop, hi]
  · intro g r c now hnd hr hnone
    set tl := (Log.fresh.appendAll ops).snd.trim (.maxLength 2) with htl
    have hclaim := claim0_fold tl c now g.pel ([], [])
    have hpel : (g.claim tl 0 c now).snd.pel =
        g.pel.filterMap (fun r0 =>
          (tl.lookup r0.entryId).map (fun _ =>
            { r0 with consumer := c, deliveryCount := r0.deliveryCount + 1 })) := by
      simp [Group.claim, hclaim]
    have hfst : (g.claim tl 0 c now).fst =
        g.pel.filterMap (fun r0 => tl.lookup r0.entryId) := by
      simp [Group.claim, hclaim]
    refine ⟨?_, ?_, ?_⟩
    · intro r' hr' heq
      rw [hpel] at hr'
      obtain ⟨r0, _hr0, hsome⟩ := List.mem_filterMap.mp hr'
      cases hl : tl.lookup r0.entryId with
      | none =>
        rw [hl] at hsome
        exact Option.noConfusion hsome
      | some en =>
        rw [hl] at hsome
        have h0 : { r0 with consumer := c, deliveryCount := r0.deliveryCount + 1 }
            = r' := Option.some.inj hsome
        have hid : r0.entryId = r.entryId := by rw [← h0] at heq; exact heq
        rw [hid] at hl
        rw [hnone] at hl
        exact Option.noConfusion hl
    · intro hmem
      rw [hfst] at hmem
      obtain ⟨en, hen, hide⟩ := List.mem_map.mp hmem
      obtain ⟨r0, _hr0, hsome⟩ := List.mem_filterMap.mp hen
      have hid0 : en.id = r0.entryId := lookup_id hsome
      rw [hide] at hid0
      rw [← hid0] at hsome
      rw [hnone] at hsome
      exact Option.noConfusion hsome
    · intro hcons
      have hhist := history_fold tl c g.pel ([], [])
      have hpelh : (g.readHistory tl c).snd.pel =
          g.pel.filterMap (fun r0 =>
            if r0.consumer == c then
              (tl.lookup r0.entryId).map
                (fun _ => { r0 with deliveryCount := r0.deliveryCount + 1 })
            else some r0) := by
        simp [Group.readHistory, hhist]
      have hfsth : (g.readHistory tl c).fst =
          g.pel.filterMap (fun r0 =>
            if r0.consumer == c then tl.lookup r0.entryId else none) := by
        simp [Group.readHistory, hhist]
      constructor
      · intro r' hr' heq
        rw [hpelh] at hr'
        obtain ⟨r0, hr0, hsome⟩ := List.mem_filterMap.mp hr'
        by_cases hc0 : r0.consumer = c
        · rw [if_pos (by simp [hc0])] at hsome
          cases hl : tl.lookup r0.entryId with
          | none =>
            rw [hl] at hsome
            exact Option.noConfusion hsome
          | some en =>
            rw [hl] at hsome
            have h0 : { r0 with deliveryCount := r0.deliveryCount + 1 } = r' :=
              Option.some.inj hsome
            have hid : r0.entryId = r.entryId := by rw [← h0] at heq; exact heq
            rw [hid, hnone] at hl
            exact Option.noConfusion hl
        · rw [if_neg (by simp [hc0])] at hsome
          have h0 : r0 = r' := Option.some.inj hsome
          have hsame : r0 = r :=
            List.inj_on_of_nodup_map hnd hr0 hr (by rw [h0]; exact heq)
          rw [hsame] at hc0
          exact hc0 hcons
      · intro hmem
        rw [hfsth] at hmem
        obtain ⟨en, hen, hide⟩ := List.mem_map.mp hmem
        obtain ⟨r0, _hr0, hsome⟩ := List.mem_filterMap.mp hen
        by_cases hc0 : r0.consumer = c
        · rw [if_pos (by simp [hc0])] at hsome
          have hid0 : en.id = r0.entryId := lookup_id hsome
          rw [hide] at hid0
          rw [← hid0, hnone] at hsome
          exact Option.noConfusion hsome
        · rw [if_neg (by simp [hc0])] at hsome
          exact Option.noConfusion hsome

/-- Witness for C6 at a concrete input: 5 valid appends, trim to the 2 newest,
an orphaned pending record for the first (trimmed) entry dropped by claim and
by the history read of the owning consumer. -/
theorem c6_trim_keeps_newest_and_drops_orphans_witness :
    ((((Log.fresh.appendAll [(1, [("k", "1")]), (2, [("k", "2")]),
          (3, [("k", "3")]), (4, [("k", "4")]), (5, [("k", "5")])]).snd.trim
          (.maxLength 2)).range .min .max 5).map Entry.fields
        = [[("k", "4")], [("k", "5")]] ∧
     r6w.entryId ∉ ((g6w.claim ((Log.fresh.appendAll [(1, [("k", "1")]),
          (2, [("k", "2")]), (3, [("k", "3")]), (4, [("k", "4")]),
          (5, [("k", "5")])]).snd.trim (.maxLength 2)) 0 "c2" 9).fst.map
          Entry.id)) := by
  have h := c6_trim_keeps_newest_and_drops_orphans
    [(1, [("k", "1")]), (2, [("k", "2")]), (3, [("k", "3")]),
     (4, [("k", "4")]), (5, [("k", "5")])] (by decide) (by decide)
  constructor
  · have h1 := h.1.1
    simpa using h1
  · exact (h.2 g6w r6w "c2" 9 (by decide) (by decide) (by decide)).2.1

/-- C7: a blocking new-entries read on a log with nothing past the group
cursor returns a normal empty result when the timeout fires before any
append, an outcome distinct from cancellation; and when a valid append
arrives while the call is suspended (requesting at least one entry, cursor
within the high-water mark), the read returns exactly the newly appended
entry. -/
theorem c7_blocking_read_resolution (log : Log) (g : Group) (c : String)
    (count now anow : Nat) (fs : List (String × String))
    (hempty : log.entries.filter (fun en => g.lastDeliveredId.ltb en.id) = []) :
    (resolveBlockingRead log g c count now .timeout).fst = .timedOutEmpty ∧
    (resolveBlockingRead log g c count now .cancel).fst = .cancelled ∧
    BlockOutcome.timedOutEmpty ≠ BlockOutcome.cancelled ∧
    (fieldsOk fs = true → g.lastDeliveredId.leb log.lastId = true → 0 < count →
      (resolveBlockingRead log g c count now (.arrival anow fs)).fst
        = .served [⟨genId log.lastId anow, fs⟩]) := by
  have hfirst : (g.readNew log c count now).fst = [] := by
    simp only [Group.readNew]
    rw [hempty]
    simp
  refine ⟨?_, ?_, ?_, ?_⟩
  · simp only [resolveBlockingRead, hfirst]
    simp
  · simp only [resolveBlockingRead, hfirst]
    simp
  · intro h
    exact BlockOutcome.noConfusion h
  · intro hfs hleb hcount
    have happ : log.append anow fs =
        .ok (genId log.lastId anow,
          ⟨log.entries ++ [⟨genId log.lastId anow, fs⟩], genId log.lastId anow⟩) := by
      simp [Log.append, hfs]
    have hlt : g.lastDeliveredId.ltb (genId log.lastId anow) = true := by
      rw [ltb_iff_idLt]
      exact idLt_of_leb_of_idLt hleb (genId_idLt log.lastId anow)
    have hserved :
        (g.readNew ⟨log.entries ++ [⟨genId log.lastId anow, fs⟩],
            genId log.lastId anow⟩ c count anow).fst
          = [⟨genId log.lastId anow, fs⟩] := by
      simp only [Group.readNew]
      rw [List.filter_append, hempty]
      simp only [List.nil_append, List.filter_cons, hlt, List.filter_nil, if_true]
      cases count with
      | zero => omega
      | succ n => simp
    simp only [resolveBlockingRead, hfirst, List.isEmpty_nil, if_true, happ,
      hserved]

/-- Witness for C7 at concrete inputs: on a fresh log with a fresh group
cursor, the timeout yields the normal empty outcome and a concurrently
arriving valid append is served back to the blocked reader. -/
theorem c7_blocking_read_resolution_witness :
    (resolveBlockingRead Log.fresh ⟨"g1", 0, ⟨0, 0⟩, [], 0⟩ "c1" 1 50
        .timeout).fst = .timedOutEmpty ∧
    (resolveBlockingRead Log.fresh ⟨"g1", 0, ⟨0, 0⟩, [], 0⟩ "c1" 1 50
        (.arrival 60 [("k", "v")])).fst
      = .served [⟨⟨60, 0⟩, [("k", "v")]⟩] := by
  have h := c7_blocking_read_resolution Log.fresh ⟨"g1", 0, ⟨0, 0⟩, [], 0⟩
    "c1" 1 50 60 [("k", "v")] (by decide)
  refine ⟨h.1, ?_⟩
  have h4 := h.2.2.2 (by decide) (by decide) (by decide)
  simpa using h4

/-- C9: the WebSocket broadcast server of `list.js` sends every received
message, with its binary flag preserved, to every client in `wss.clients`
whose readyState is OPEN — the sender being one of those clients — while
clients in any other state receive nothing; and every newly connected client
joins in the OPEN state with the greeting as its first message. -/
theorem c9_broadcast_and_greeting (st : WSServer) (data : String) (b : Bool)
    (i : Nat) (cl : WSClient) (hcl : st.clients[i]? = some cl) :
    ((cl.readyState = wsOPEN →
        (wsBroadcast st data b).clients[i]? =
          some { cl with received := cl.received ++ [(data, b)] }) ∧
     (cl.readyState ≠ wsOPEN →
        (wsBroadcast st data b).clients[i]? = some cl)) ∧
    (wsConnect st).clients[st.clients.length]? =
      some ⟨wsOPEN, [(wsGreeting, false)]⟩ ∧
    (wsConnect st).count = st.count + 1 := by
  have hmap : (wsBroadcast st data b).clients[i]? =
      Option.map (fun cl0 =>
        if cl0.readyState = wsOPEN then
          { cl0 with received := cl0.received ++ [(data, b)] }
        else cl0) st.clients[i]? := by
    simp [wsBroadcast]
  refine ⟨⟨?_, ?_⟩, ?_, ?_⟩
  · intro hop
    rw [hmap, hcl]
    simp [hop]
  · intro hop
    rw [hmap, hcl]
    simp [hop]
  · simp only [wsConnect]
    exact List.getElem?_concat_length st.clients _
  · rfl

/-- Witness for C9 at a concrete input: a server with one OPEN client and one
closed client; the broadcast reaches only the OPEN client, and a new
connection receives the greeting first. -/
theorem c9_broadcast_and_greeting_witness :
    (wsBroadcast ⟨[⟨1, []⟩, ⟨3, []⟩], 2⟩ "m" true).clients[0]? =
      some ⟨1, [("m", true)]⟩ ∧
    (wsBroadcast ⟨[⟨1, []⟩, ⟨3, []⟩], 2⟩ "m" true).clients[1]? =
      some ⟨3, []⟩ ∧
    (wsConnect ⟨[⟨1, []⟩, ⟨3, []⟩], 2⟩).clients[2]? =
      some ⟨wsOPEN, [(wsGreeting, false)]⟩ ∧
    (wsConnect ⟨[⟨1, []⟩, ⟨3, []⟩], 2⟩).count = 3 := by
  have h0 := c9_broadcast_and_greeting ⟨[⟨1, []⟩, ⟨3, []⟩], 2⟩ "m" true 0
    ⟨1, []⟩ (by decide)
  have h1 := c9_broadcast_and_greeting ⟨[⟨1, []⟩, ⟨3, []⟩], 2⟩ "m" true 1
    ⟨3, []⟩ (by decide)
  exact ⟨h0.1.1 rfl, h1.1.2 (by decide), h0.2.1, h0.2.2⟩

/-- C10 counterexample: the claim states that whenever the key "posts" holds a
value the handler responds with the parsed cached value and performs no
external API fetch.  With the key holding the empty string — a value, but
falsy in JS — the handler takes the miss path: it fetches from the API and
responds with the fetched data, not with the parsed cached value. -/
theorem c10_cached_value_counterexample :
    (cacheHandler (fun s => some s) (fun s => s) (some "")
        (Except.ok "X")).fetched = true ∧
    (cacheHandler (fun s => some s) (fun s => s) (some "")
        (Except.ok "X")).response ≠ .json "" := by
  decide

/-- C10 (amended): if the key "posts" holds a non-empty value (JS truthiness:
an empty cached string is treated as a miss), the handler performs no fetch
and responds with the parsed cached value — or with HTTP 500 when parsing
throws; if the key is absent or holds the empty string, it fetches from the
external API and, on success, stores the serialized response under "posts"
with a 60-second expiry and responds with the fetched data; on a throwing
fetch it responds with HTTP 500. -/
theorem c10_cache_aside_handler {A : Type} (parse : String → Option A)
    (strfy : A → String) (cached : Option String) (api : Except Unit A) :
    (∀ s v, cached = some s → s ≠ "" → parse s = some v →
      cacheHandler parse strfy cached api = ⟨.json v, false, none⟩) ∧
    (∀ s, cached = some s → s ≠ "" → parse s = none →
      cacheHandler parse strfy cached api = ⟨.serverError, false, none⟩) ∧
    (∀ d, (cached = none ∨ cached = some "") → api = .ok d →
      cacheHandler parse strfy cached api =
        ⟨.json d, true, some ("posts", 60, strfy d)⟩) ∧
    ((cached = none ∨ cached = some "") → api = .error () →
      cacheHandler parse strfy cached api = ⟨.serverError, true, none⟩) := by
  refine ⟨?_, ?_, ?_, ?_⟩
  · rintro s v rfl hs hp
    simp [cacheHandler, hs, hp]
  · rintro s rfl hs hp
    simp [cacheHandler, hs, hp]
  · rintro d (rfl | rfl) rfl <;> simp [cacheHandler, cacheMissPath]
  · rintro (rfl | rfl) rfl <;> simp [cacheHandler, cacheMissPath]

/-- Witness for C10 at concrete inputs: a cache hit on a non-empty value
answers from the cache without fetching, and a cache miss fetches, stores
with a 60-second expiry, and answers with the fetched data. -/
theorem c10_cache_aside_handler_witness :
    cacheHandler (fun s => some s) (fun s => s) (some "hit")
        (Except.ok "X") = ⟨.json "hit", false, none⟩ ∧
    cacheHandler (fun s => some s) (fun s => s) none (Except.ok "D") =
      ⟨.json "D", true, some ("posts", 60, "D")⟩ := by
  constructor
  · exact (c10_cache_aside_handler (fun s => some s) (fun s => s) (some "hit")
      (Except.ok "X")).1 "hit" "hit" rfl (by decide) rfl
  · exact (c10_cache_aside_handler (fun s => some s) (fun s => s) none
      (Except.ok "D")).2.2.1 "D" (Or.inl rfl) rfl

theorem leb_refl (a : EntryID) : a.leb a = true := by
  simp [EntryID.leb]

theorem leb_of_idLt {a b : EntryID} (h : idLt a b) : a.leb b = true := by
  rw [leb_iff]
  exact Or.inl h

theorem leb_trans {a b c : EntryID} (h1 : a.leb b = true)
    (h2 : b.leb c = true) : a.leb c = true := by
  rcases (leb_iff a b).mp h1 with h | rfl
  · rcases (leb_iff b c).mp h2 with h' | rfl
    · exact leb_of_idLt (Trans.trans h h')
    · exact h1
  · exact h2

theorem ne_of_idLt {a b : EntryID} (h : idLt a b) : a ≠ b := by
  intro he
  rw [he] at h
  exact idLt_irrefl b h

theorem ne_of_leb_ltb {x cur y : EntryID} (h1 : x.leb cur = true)
    (h2 : cur.ltb y = true) : x ≠ y :=
  ne_of_idLt (idLt_of_leb_of_idLt h1 ((ltb_iff_idLt cur y).mp h2))

theorem sorted_le_last : ∀ (l : List Entry),
    (l.map Entry.id).Pairwise idLt →
    ∀ lastEn, l.getLast? = some lastEn →
    ∀ en ∈ l, en.id.leb lastEn.id = true := by
  intro l
  induction l with
  | nil =>
    intro _ lastEn hl
    simp at hl
  | cons a t ih =>
    intro hp lastEn hl en hen
    cases t with
    | nil =>
      have ha : a = lastEn := by simpa using hl
      have he : en = a := by simpa using hen
      rw [he, ha]
      exact leb_refl lastEn.id
    | cons b t2 =>
      rw [List.getLast?_cons_cons] at hl
      rw [List.map_cons] at hp
      have hp' := List.pairwise_cons.mp hp
      rcases List.mem_cons.mp hen with rfl | hen2
      · have hmem : lastEn ∈ b :: t2 := List.mem_of_getLast?_eq_some hl
        exact leb_of_idLt (hp'.1 lastEn.id (List.mem_map_of_mem _ hmem))
      · exact ih hp'.2 lastEn hl en hen2

theorem foldRecord_append (c : String) (now : Nat) :
    ∀ (served : List Entry) (pel : List PendingRecord),
      (∀ en ∈ served, ∀ r ∈ pel, r.entryId ≠ en.id) →
      (served.map Entry.id).Pairwise idLt →
      served.foldl (fun p en => recordDelivery p en.id c now) pel
        = pel ++ served.map (fun en => ⟨en.id, c, 1, now⟩) := by
  intro served
  induction served with
  | nil =>
    intro pel _ _
    simp
  | cons en rest ih =>
    intro pel hdisj hp
    rw [List.map_cons] at hp
    have hp' := List.pairwise_cons.mp hp
    have hnotin : pel.any (fun r => r.entryId == en.id) = false := by
      rw [List.any_eq_false]
      intro r hr
      simp only [beq_iff_eq]
      exact hdisj en (List.mem_cons_self _ _) r hr
    have hstep : recordDelivery pel en.id c now = pel ++ [⟨en.id, c, 1, now⟩] := by
      simp [recordDelivery, hnotin]
    rw [List.foldl_cons, hstep, ih]
    · simp
    · intro en2 hen2 r hr
      rcases List.mem_append.mp hr with hr0 | hr1
      · exact hdisj en2 (List.mem_cons_of_mem _ hen2) r hr0
      · have hre : r = ⟨en.id, c, 1, now⟩ := by simpa using hr1
        rw [hre]
        exact ne_of_idLt (hp'.1 en2.id (List.mem_map_of_mem _ hen2))
    · exact hp'.2

theorem filterMap_key_sublist (f : PendingRecord → Option PendingRecord)
    (hf : ∀ r r', f r = some r' → r'.entryId = r.entryId) :
    ∀ pel : List PendingRecord,
      List.Sublist ((pel.filterMap f).map PendingRecord.entryId)
        (pel.map PendingRecord.entryId) := by
  intro pel
  induction pel with
  | nil => simp
  | cons r rest ih =>
    rw [List.filterMap_cons]
    cases hfr : f r with
    | none =>
      rw [List.map_cons]
      exact ih.cons _
    | some r' =>
      rw [List.map_cons, List.map_cons, hf r r' hfr]
      exact ih.cons₂ _

theorem wf_of_ids_sublist {g g' : Group} (hwf : g.wf)
    (hcur : g'.lastDeliveredId = g.lastDeliveredId)
    (hsub : List.Sublist (g'.pel.map PendingRecord.entryId)
      (g.pel.map PendingRecord.entryId)) : g'.wf := by
  constructor
  · exact hwf.1.sublist hsub
  · intro r hr
    have hmem : r.entryId ∈ g.pel.map PendingRecord.entryId :=
      hsub.subset (List.mem_map_of_mem _ hr)
    obtain ⟨r0, hr0, he⟩ := List.mem_map.mp hmem
    rw [hcur, ← he]
    exact hwf.2 r0 hr0

theorem claim_fold (log : Log) (minIdle : Nat) (c : String) (now : Nat)
    (pel : List PendingRecord) :
    ∀ acc : List Entry × List PendingRecord,
      pel.foldl (claimStep log minIdle c now) acc =
        (acc.fst ++ pel.filterMap (fun r =>
           if minIdle ≤ now - r.firstDeliveredAt then log.lookup r.entryId
           else none),
         acc.snd ++ pel.filterMap (fun r =>
           if minIdle ≤ now - r.firstDeliveredAt then
             (log.lookup r.entryId).map (fun _ =>
               { r with consumer := c, deliveryCount := r.deliveryCount + 1 })
           else some r)) := by
  induction pel with
  | nil => intro acc; simp
  | cons r rest ih =>
    intro acc
    by_cases hidle : minIdle ≤ now - r.firstDeliveredAt
    · cases hl : log.lookup r.entryId with
      | none =>
        simp only [List.foldl_cons, List.filterMap_cons, claimStep, hl,
          hidle, if_true, Option.map_none]
        exact ih acc
      | some en =>
        simp only [List.foldl_cons, List.filterMap_cons, claimStep, hl,
          hidle, if_true, Option.map_some]
        rw [ih]
        simp [List.append_assoc]
    · simp only [List.foldl_cons, List.filterMap_cons, claimStep, hidle,
        if_false]
      rw [ih]
      simp [List.append_assoc]

theorem setGroup_log (s : Stream) (g' : Group) : (s.setGroup g').log = s.log :=
  rfl

theorem setGroup_nextGid (s : Stream) (g' : Group) :
    (s.setGroup g').nextGid = s.nextGid := rfl

theorem setGroup_gids (s : Stream) (g' : Group) :
    (s.setGroup g').groups.map Group.gid = s.groups.map Group.gid := by
  simp only [Stream.setGroup, List.map_map]
  apply List.map_congr_left
  intro g0 _
  by_cases hb : g0.gid = g'.gid
  · simp [Function.comp, hb]
  · simp [Function.comp, hb]

theorem mem_setGroup {s : Stream} {g' g'' : Group}
    (h : g'' ∈ (s.setGroup g').groups) :
    g'' = g' ∨ (g'' ∈ s.groups ∧ g''.gid ≠ g'.gid) := by
  obtain ⟨g0, hg0, he⟩ := List.mem_map.mp h
  by_cases hb : g0.gid = g'.gid
  · left
    rw [← he]
    simp [hb]
  · right
    have : g'' = g0 := by rw [← he]; simp [hb]
    rw [this]
    exact ⟨hg0, hb⟩

theorem setGroup_inv_general (s : Stream) (evs newEvs : List DeliveryEvent)
    (h : StreamInv s evs) (g g' : Group) (hg : g ∈ s.groups)
    (hgid : g'.gid = g.gid) (hwf : g'.wf)
    (hcur : g.lastDeliveredId.leb g'.lastDeliveredId = true)
    (hnew_gid : ∀ e ∈ newEvs, e.gid = g.gid)
    (hnew_le : ∀ e ∈ newEvs, e.entryId.leb g'.lastDeliveredId = true)
    (hnew_pw : newEvs.Pairwise
      (fun e1 e2 => e1.gid = e2.gid → e1.entryId ≠ e2.entryId))
    (hcross : ∀ e1 ∈ evs, ∀ e2 ∈ newEvs,
      e1.gid = e2.gid → e1.entryId ≠ e2.entryId) :
    StreamInv (s.setGroup g') (evs ++ newEvs) := by
  obtain ⟨hlog, hgids, hglt, helt, hgrp, hpw⟩ := h
  refine ⟨?_, ?_, ?_, ?_, ?_, ?_⟩
  · rw [setGroup_log]
    exact hlog
  · rw [setGroup_gids]
    exact hgids
  · intro g'' hg''
    rw [setGroup_nextGid]
    rcases mem_setGroup hg'' with rfl | ⟨hg2, _⟩
    · rw [hgid]
      exact hglt g hg
    · exact hglt g'' hg2
  · intro e he
    rw [setGroup_nextGid]
    rcases List.mem_append.mp he with h1 | h2
    · exact helt e h1
    · rw [hnew_gid e h2]
      exact hglt g hg
  · intro g'' hg''
    rcases mem_setGroup hg'' with rfl | ⟨hg2, hne⟩
    · refine ⟨hwf, ?_⟩
      intro e he hegid
      rcases List.mem_append.mp he with h1 | h2
      · have h0 : e.entryId.leb g.lastDeliveredId = true :=
          (hgrp g hg).2 e h1 (by rw [hegid, hgid])
        exact leb_trans h0 hcur
      · exact hnew_le e h2
    · refine ⟨(hgrp g'' hg2).1, ?_⟩
      intro e he hegid
      rcases List.mem_append.mp he with h1 | h2
      · exact (hgrp g'' hg2).2 e h1 hegid
      · rw [hgid] at hne
        exact absurd (hegid ▸ hnew_gid e h2) hne
  · rw [List.pairwise_append]
    exact ⟨hpw, hnew_pw, hcross⟩

theorem readNew_preserves (s : Stream) (evs : List DeliveryEvent)
    (h : StreamInv s evs) (g : Group) (hg : g ∈ s.groups)
    (c : String) (count now : Nat) :
    StreamInv (s.setGroup (g.readNew s.log c count now).snd)
      (evs ++ (g.readNew s.log c count now).fst.map
        (fun en => ⟨g.gid, c, en.id⟩)) := by
  have hgwf := (h.2.2.2.2.1 g hg).1
  have hgev := (h.2.2.2.2.1 g hg).2
  have hlog := h.1
  set served := (s.log.entries.filter
    (fun en => g.lastDeliveredId.ltb en.id)).take count with hserved_def
  have hfst : (g.readNew s.log c count now).fst = served := rfl
  have hsub : served.Sublist s.log.entries :=
    List.Sublist.trans (List.take_sublist _ _) (List.filter_sublist _)
  have hpred : ∀ en ∈ served, g.lastDeliveredId.ltb en.id = true := by
    intro en hen
    rw [hserved_def] at hen
    have h1 : en ∈ List.filter (fun en => g.lastDeliveredId.ltb en.id)
        s.log.entries := List.mem_of_mem_take hen
    exact (List.mem_filter.mp h1).2
  have hpair : (served.map Entry.id).Pairwise idLt :=
    hlog.1.sublist (hsub.map _)
  have hcursor : (g.readNew s.log c count now).snd.lastDeliveredId =
      (match served.getLast? with
       | some en => en.id
       | none => g.lastDeliveredId) := rfl
  have hcur_le : g.lastDeliveredId.leb
      (g.readNew s.log c count now).snd.lastDeliveredId = true := by
    cases hl : served.getLast? with
    | none =>
      simp only [hcursor, hl]
      exact leb_refl _
    | some lastEn =>
      simp only [hcursor, hl]
      exact leb_of_idLt ((ltb_iff_idLt _ _).mp
        (hpred lastEn (List.mem_of_getLast?_eq_some hl)))
  have hserved_le : ∀ en ∈ served, en.id.leb
      (g.readNew s.log c count now).snd.lastDeliveredId = true := by
    intro en hen
    cases hl : served.getLast? with
    | none =>
      have : served = [] := List.getLast?_eq_none_iff.mp hl
      rw [this] at hen
      cases hen
    | some lastEn =>
      simp only [hcursor, hl]
      exact sorted_le_last served hpair lastEn hl en hen
  have hdisj : ∀ en ∈ served, ∀ r ∈ g.pel, r.entryId ≠ en.id := by
    intro en hen r hr
    exact ne_of_leb_ltb (hgwf.2 r hr) (hpred en hen)
  have hpel : (g.readNew s.log c count now).snd.pel =
      g.pel ++ served.map (fun en => (⟨en.id, c, 1, now⟩ : PendingRecord)) :=
    foldRecord_append c now served g.pel hdisj hpair
  rw [hfst]
  refine setGroup_inv_general s evs _ h g _ hg rfl ?_ hcur_le ?_ ?_ ?_ ?_
  · constructor
    · rw [hpel, List.map_append, List.map_map]
      rw [List.nodup_append]
      refine ⟨hgwf.1, ?_, ?_⟩
      · have hn : (served.map Entry.id).Nodup :=
          hpair.imp (fun hab => ne_of_idLt hab)
        exact hn
      · intro a ha hb
        have hb2 : a ∈ served.map Entry.id := by simpa using hb
        obtain ⟨r, hr, hre⟩ := List.mem_map.mp ha
        obtain ⟨en, hen, hee⟩ := List.mem_map.mp hb2
        have h1 : r.entryId.leb g.lastDeliveredId = true := hgwf.2 r hr
        have h2 : g.lastDeliveredId.ltb en.id = true := hpred en hen
        exact ne_of_leb_ltb h1 h2 (by rw [hre, ← hee])
    · intro r hr
      rw [hpel] at hr
      rcases List.mem_append.mp hr with hr0 | hr1
      · exact leb_trans (hgwf.2 r hr0) hcur_le
      · obtain ⟨en, hen, hee⟩ := List.mem_map.mp hr1
        have : r.entryId = en.id := by rw [← hee]
        rw [this]
        exact hserved_le en hen
  · intro e he
    obtain ⟨en, _, hee⟩ := List.mem_map.mp he
    rw [← hee]
  · intro e he
    obtain ⟨en, hen, hee⟩ := List.mem_map.mp he
    rw [← hee]
    exact hserved_le en hen
  · rw [List.pairwise_map]
    have hp2 := List.pairwise_map.mp hpair
    refine List.Pairwise.imp ?_ hp2
    intro a b hab _
    exact ne_of_idLt hab
  · intro e1 h1 e2 h2 hgid12
    obtain ⟨en, hen, hee⟩ := List.mem_map.mp h2
    have hgid1 : e1.gid = g.gid := by rw [hgid12, ← hee]
    have hle : e1.entryId.leb g.lastDeliveredId = true := hgev e1 h1 hgid1
    have hlt : g.lastDeliveredId.ltb en.id = true := hpred en hen
    have : e1.entryId ≠ en.id := ne_of_leb_ltb hle hlt
    rw [← hee]
    exact this

theorem append_wf {l : Log} (hwf : l.wf) {now : Nat}
    {fs : List (String × String)} {id : EntryID} {l' : Log}
    (h : l.append now fs = .ok (id, l')) : l'.wf := by
  by_cases hfs : fieldsOk fs = true
  · rw [Log.append, if_pos hfs] at h
    have h2 := Except.ok.inj h
    have hl : (⟨l.entries ++ [⟨genId l.lastId now, fs⟩],
        genId l.lastId now⟩ : Log) = l' := congrArg Prod.snd h2
    rw [← hl]
    constructor
    · show ((l.entries ++ [(⟨genId l.lastId now, fs⟩ : Entry)]).map
        Entry.id).Pairwise idLt
      rw [List.map_append, List.pairwise_append]
      refine ⟨hwf.1, by simp, ?_⟩
      intro a ha b hb
      have hb2 : b = genId l.lastId now := by simpa using hb
      obtain ⟨en, hen, hee⟩ := List.mem_map.mp ha
      rw [hb2, ← hee]
      exact idLt_of_leb_of_idLt (hwf.2 en hen) (genId_idLt l.lastId now)
    · intro en hen
      show en.id.leb (genId l.lastId now) = true
      rcases List.mem_append.mp hen with h0 | h1
      · exact leb_trans (hwf.2 en h0) (leb_of_idLt (genId_idLt l.lastId now))
      · have he : en = (⟨genId l.lastId now, fs⟩ : Entry) := by simpa using h1
        rw [he]
        exact leb_refl _
  · rw [Log.append, if_neg hfs] at h
    exact Except.noConfusion h

theorem trim_wf {l : Log} (hwf : l.wf) (p : TrimPolicy) : (l.trim p).wf := by
  have hsubl : (l.trim p).entries.Sublist l.entries := by
    cases p with
    | maxLength n => exact List.drop_sublist _ _
    | minId m => exact List.filter_sublist _
  have hlast : (l.trim p).lastId = l.lastId := by
    cases p <;> rfl
  constructor
  · exact hwf.1.sublist (hsubl.map _)
  · intro en hen
    rw [hlast]
    exact hwf.2 en (hsubl.subset hen)

theorem step_preserves (s : Stream) (evs : List DeliveryEvent) (op : Op)
    (h : StreamInv s evs) :
    StreamInv (s.step op).fst (evs ++ (s.step op).snd) := by
  obtain ⟨hlog, hgids, hglt, helt, hgrp, hpw⟩ := h
  cases op with
  | append now fs =>
    cases happ : s.log.append now fs with
    | error e =>
      simp only [Stream.step, happ, List.append_nil]
      exact ⟨hlog, hgids, hglt, helt, hgrp, hpw⟩
    | ok p =>
      simp only [Stream.step, happ, List.append_nil]
      refine ⟨?_, hgids, hglt, helt, hgrp, hpw⟩
      exact append_wf hlog (show s.log.append now fs = .ok (p.fst, p.snd) by
        rw [happ])
  | createGroup gname pos now =>
    by_cases hex : s.groups.any (fun g0 => g0.name == gname) = true
    · simp only [Stream.step, hex, if_true, List.append_nil]
      exact ⟨hlog, hgids, hglt, helt, hgrp, hpw⟩
    · simp only [Stream.step]
      rw [if_neg hex]
      dsimp only
      rw [List.append_nil]
      refine ⟨hlog, ?_, ?_, ?_, ?_, hpw⟩
      · rw [List.map_append, List.nodup_append]
        refine ⟨hgids, by simp, ?_⟩
        intro a ha hb
        have hb2 : a = s.nextGid := by simpa using hb
        obtain ⟨g0, hg0, he⟩ := List.mem_map.mp ha
        have hlt := hglt g0 hg0
        rw [he, hb2] at hlt
        exact Nat.lt_irrefl _ hlt
      · intro g0 hg0
        rcases List.mem_append.mp hg0 with h0 | h1
        · exact Nat.lt_trans (hglt g0 h0) (Nat.lt_succ_self _)
        · have he := List.mem_singleton.mp h1
          have h2 : g0.gid = s.nextGid := by rw [he]
          rw [h2]
          exact Nat.lt_succ_self _
      · intro e he
        exact Nat.lt_trans (helt e he) (Nat.lt_succ_self _)
      · intro g0 hg0
        rcases List.mem_append.mp hg0 with h0 | h1
        · exact hgrp g0 h0
        · have he := List.mem_singleton.mp h1
          constructor
          · rw [he]
            constructor
            · exact List.Pairwise.nil
            · intro r hr
              exact absurd hr (List.not_mem_nil r)
          · intro e hev hegid
            rw [he] at hegid
            have h2 : e.gid = s.nextGid := hegid
            exact absurd h2 (Nat.ne_of_lt (helt e hev))
  | readNew gname c count now =>
    cases hfind : s.findGroup gname with
    | none =>
      simp only [Stream.step, hfind, List.append_nil]
      exact ⟨hlog, hgids, hglt, helt, hgrp, hpw⟩
    | some g =>
      simp only [Stream.step, hfind]
      exact readNew_preserves s evs ⟨hlog, hgids, hglt, helt, hgrp, hpw⟩ g
        (List.mem_of_find?_eq_some hfind) c count now
  | readHistory gname c =>
    cases hfind : s.findGroup gname with
    | none =>
      simp only [Stream.step, hfind, List.append_nil]
      exact ⟨hlog, hgids, hglt, helt, hgrp, hpw⟩
    | some g =>
      simp only [Stream.step, hfind]
      have hgmem := List.mem_of_find?_eq_some hfind
      have hgwf := (hgrp g hgmem).1
      have hpel : (g.readHistory s.log c).snd.pel =
          g.pel.filterMap (fun r =>
            if r.consumer == c then
              (s.log.lookup r.entryId).map
                (fun _ => { r with deliveryCount := r.deliveryCount + 1 })
            else some r) := by
        have hh := history_fold s.log c g.pel ([], [])
        simp [Group.readHistory, hh]
      have hkey : ∀ (r r' : PendingRecord),
          (if r.consumer == c then
             (s.log.lookup r.entryId).map
               (fun _ => { r with deliveryCount := r.deliveryCount + 1 })
           else some r) = some r' → r'.entryId = r.entryId := by
        intro r r' hr'
        by_cases hc0 : r.consumer = c
        · rw [if_pos (by simp [hc0])] at hr'
          cases hl : s.log.lookup r.entryId with
          | none =>
            rw [hl] at hr'
            exact Option.noConfusion hr'
          | some en =>
            rw [hl] at hr'
            rw [← Option.some.inj hr']
        · rw [if_neg (by simp [hc0])] at hr'
          rw [← Option.some.inj hr']
      have hsub : List.Sublist
          ((g.readHistory s.log c).snd.pel.map PendingRecord.entryId)
          (g.pel.map PendingRecord.entryId) := by
        rw [hpel]
        exact filterMap_key_sublist _ hkey g.pel
      refine setGroup_inv_general s evs []
        ⟨hlog, hgids, hglt, helt, hgrp, hpw⟩ g _ hgmem rfl
        (wf_of_ids_sublist hgwf rfl hsub) (leb_refl _)
        ?_ ?_ List.Pairwise.nil ?_
      · intro e he
        cases he
      · intro e he
        cases he
      · intro e1 h1 e2 h2
        cases h2
  | ack gname id =>
    cases hfind : s.findGroup gname with
    | none =>
      simp only [Stream.step, hfind, List.append_nil]
      exact ⟨hlog, hgids, hglt, helt, hgrp, hpw⟩
    | some g =>
      simp only [Stream.step, hfind]
      have hgmem := List.mem_of_find?_eq_some hfind
      have hgwf := (hgrp g hgmem).1
      have hsub : List.Sublist
          ((g.ack id).snd.pel.map PendingRecord.entryId)
          (g.pel.map PendingRecord.entryId) := by
        by_cases hh : g.hasPending id = true
        · have hsnd : (g.ack id).snd =
              { g with pel := g.pel.filter (fun r => !(r.entryId == id)) } := by
            simp [Group.ack, hh]
          rw [hsnd]
          exact (List.filter_sublist _).map _
        · have hsnd : (g.ack id).snd = g := by simp [Group.ack, hh]
          rw [hsnd]
      have hcur : (g.ack id).snd.lastDeliveredId = g.lastDeliveredId := by
        by_cases hh : g.hasPending id = true
        · simp [Group.ack, hh]
        · simp [Group.ack, hh]
      have hgid : (g.ack id).snd.gid = g.gid := by
        by_cases hh : g.hasPending id = true
        · simp [Group.ack, hh]
        · simp [Group.ack, hh]
      refine setGroup_inv_general s evs []
        ⟨hlog, hgids, hglt, helt, hgrp, hpw⟩ g _ hgmem hgid
        (wf_of_ids_sublist hgwf hcur hsub) (by rw [hcur]; exact leb_refl _)
        ?_ ?_ List.Pairwise.nil ?_
      · intro e he
        cases he
      · intro e he
        cases he
      · intro e1 h1 e2 h2
        cases h2
  | claim gname minIdle c now =>
    cases hfind : s.findGroup gname with
    | none =>
      simp only [Stream.step, hfind, List.append_nil]
      exact ⟨hlog, hgids, hglt, helt, hgrp, hpw⟩
    | some g =>
      simp only [Stream.step, hfind]
      have hgmem := List.mem_of_find?_eq_some hfind
      have hgwf := (hgrp g hgmem).1
      have hpel : (g.claim s.log minIdle c now).snd.pel =
          g.pel.filterMap (fun r =>
            if minIdle ≤ now - r.firstDeliveredAt then
              (s.log.lookup r.entryId).map (fun _ =>
                { r with consumer := c, deliveryCount := r.deliveryCount + 1 })
            else some r) := by
        have hh := claim_fold s.log minIdle c now g.pel ([], [])
        simp [Group.claim, hh]
      have hkey : ∀ (r r' : PendingRecord),
          (if minIdle ≤ now - r.firstDeliveredAt then
             (s.log.lookup r.entryId).map (fun _ =>
               { r with consumer := c, deliveryCount := r.deliveryCount + 1 })
           else some r) = some r' → r'.entryId = r.entryId := by
        intro r r' hr'
        by_cases hidle : minIdle ≤ now - r.firstDeliveredAt
        · rw [if_pos hidle] at hr'
          cases hl : s.log.lookup r.entryId with
          | none =>
            rw [hl] at hr'
            exact Option.noConfusion hr'
          | some en =>
            rw [hl] at hr'
            rw [← Option.some.inj hr']
        · rw [if_neg hidle] at hr'
          rw [← Option.some.inj hr']
      have hsub : List.Sublist
          ((g.claim s.log minIdle c now).snd.pel.map PendingRecord.entryId)
          (g.pel.map PendingRecord.entryId) := by
        rw [hpel]
        exact filterMap_key_sublist _ hkey g.pel
      refine setGroup_inv_general s evs []
        ⟨hlog, hgids, hglt, helt, hgrp, hpw⟩ g _ hgmem rfl
        (wf_of_ids_sublist hgwf rfl hsub) (leb_refl _)
        ?_ ?_ List.Pairwise.nil ?_
      · intro e he
        cases he
      · intro e he
        cases he
      · intro e1 h1 e2 h2
        cases h2
  | trim p =>
    simp only [Stream.step, List.append_nil]
    exact ⟨trim_wf hlog p, hgids, hglt, helt, hgrp, hpw⟩
  | deleteGroup gname =>
    simp only [Stream.step, List.append_nil]
    refine ⟨hlog, ?_, ?_, helt, ?_, hpw⟩
    · exact hgids.sublist ((List.filter_sublist _).map _)
    · intro g0 hg0
      exact hglt g0 ((List.filter_sublist _).subset hg0)
    · intro g0 hg0
      exact hgrp g0 ((List.filter_sublist _).subset hg0)

theorem start_inv : StreamInv Stream.start [] := by
  refine ⟨⟨List.Pairwise.nil, ?_⟩, List.Pairwise.nil, ?_, ?_, ?_,
    List.Pairwise.nil⟩
  · intro en hen
    exact absurd hen (List.not_mem_nil en)
  · intro g hg
    exact absurd hg (List.not_mem_nil g)
  · intro e he
    exact absurd he (List.not_mem_nil e)
  · intro g hg
    exact absurd hg (List.not_mem_nil g)

theorem runFrom_preserves : ∀ (ops : List Op) (s : Stream)
    (evs : List DeliveryEvent), StreamInv s evs →
    StreamInv (Stream.runFrom s evs ops).fst (Stream.runFrom s evs ops).snd := by
  intro ops
  induction ops with
  | nil =>
    intro s evs h
    exact h
  | cons op rest ih =>
    intro s evs h
    exact ih _ _ (step_preserves s evs op h)

theorem run_inv (ops : List Op) :
    StreamInv (Stream.run ops).fst (Stream.run ops).snd :=
  runFrom_preserves ops Stream.start [] start_inv

/-- C5: over every reachable history of the log state machine, no entry is
handed out by new-entries mode to two different consumers of the same group
(groups identified by their internal identity, so re-created groups of the
same name are distinct): any two new-entries deliveries of one group to
distinct consumers concern distinct entries. -/
theorem c5_no_double_delivery (ops : List Op) (e1 e2 : DeliveryEvent)
    (h1 : e1 ∈ (Stream.run ops).snd) (h2 : e2 ∈ (Stream.run ops).snd)
    (hg : e1.gid = e2.gid) (hc : e1.consumer ≠ e2.consumer) :
    e1.entryId ≠ e2.entryId := by
  obtain ⟨_, _, _, _, _, hpw⟩ := run_inv ops
  have hsym : Symmetric (fun a b : DeliveryEvent =>
      a.gid = b.gid → a.entryId ≠ b.entryId) := by
    intro a b hab hba hid
    exact (hab hba.symm) hid.symm
  have hne : e1 ≠ e2 := fun he => hc (by rw [he])
  exact hpw.forall hsym h1 h2 hne hg

/-- Witness for C5 at a concrete input: two consumers of one group each
receive one of the two appended entries, and the theorem yields that the
entries delivered to them are distinct. -/
theorem c5_no_double_delivery_witness :
    (⟨0, "c1", ⟨100, 0⟩⟩ : DeliveryEvent) ∈ (Stream.run opsDemo).snd ∧
    (⟨0, "c2", ⟨100, 1⟩⟩ : DeliveryEvent) ∈ (Stream.run opsDemo).snd ∧
    (⟨100, 0⟩ : EntryID) ≠ ⟨100, 1⟩ := by
  refine ⟨by decide, by decide, ?_⟩
  exact c5_no_double_delivery opsDemo ⟨0, "c1", ⟨100, 0⟩⟩ ⟨0, "c2", ⟨100, 1⟩⟩
    (by decide) (by decide) rfl (by decide)

/-- C8: in every reachable state of the log state machine, every group's
Pending Entry List mentions each entry-id at most once — the uniqueness
invariant is preserved by every operation (delivery inserts or updates rather
than duplicating; records leave only by acknowledgment, claim-time orphan
reconciliation, or group deletion). -/
theorem c8_pel_entry_ids_unique (ops : List Op) (g : Group)
    (hg : g ∈ (Stream.run ops).fst.groups) :
    (g.pel.map PendingRecord.entryId).Nodup := by
  obtain ⟨_, _, _, _, hgrp, _⟩ := run_inv ops
  exact (hgrp g hg).1.1

/-- Witness for C8 at a concrete input: the group reached by the demo
operation sequence, holding two pending records, has distinct entry-ids in
its PEL. -/
theorem c8_pel_entry_ids_unique_witness :
    (((⟨"g1", 0, ⟨100, 1⟩,
        [⟨⟨100, 0⟩, "c1", 1, 200⟩, ⟨⟨100, 1⟩, "c2", 1, 200⟩], 100⟩ :
       Group).pel.map PendingRecord.entryId)).Nodup :=
  c8_pel_entry_ids_unique opsDemo
    ⟨"g1", 0, ⟨100, 1⟩,
      [⟨⟨100, 0⟩, "c1", 1, 200⟩, ⟨⟨100, 1⟩, "c2", 1, 200⟩], 100⟩ (by decide)

end ServerComm
